import Mathlib

/-!
Verification of the model-update tracker (scripts/fetch_updates.py).

The development shallowly embeds the tracker's pure core: calendar dates
(`Date`, `parseDateYMD`, `fmtYMD` model Python's
`datetime.strptime(s, "%Y-%m-%d")` / `strftime("%Y-%m-%d")`), the persisted
record shape (`Record`), loading and saving of the store
(`load_existing_data`, `save_data`), the duplicate test (`is_duplicate`),
the per-source normalizers (`extract_model_info_from_github`,
`extract_model_info_from_hf`, the RSS stage `fetch_official_rss_updates`)
and the orchestrating run (`run_new_updates`, `run_saved_store`).
External effects (HTTP, feed retrieval, the Hugging Face search) are inputs
of the run; each stage receives the payloads those collaborators returned.
Strings are ASCII in every scenario of interest, so character classes
(digits, lowercasing, whitespace) are modelled at the ASCII level.
-/

/-- Calendar date as parsed by Python's datetime: year, month, day. -/
structure Date where
  y : Nat
  m : Nat
  d : Nat
deriving DecidableEq, Repr

/-- Number of leading ASCII digits of a character list (the span matched by
a leading regex digit quantifier). -/
def digitCount (cs : List Char) : Nat := (cs.takeWhile Char.isDigit).length

/-- Numeric value of a digit character. -/
def digitVal (c : Char) : Nat := c.toNat - '0'.toNat

/-- Leap-year rule used by Python's calendar arithmetic. -/
def isLeap (y : Nat) : Bool := y % 4 = 0 && (y % 100 != 0 || y % 400 = 0)

/-- Length of a month exactly as datetime validates the day component. -/
def daysInMonth (y m : Nat) : Nat :=
  if m = 2 then (if isLeap y then 29 else 28)
  else if m = 4 || m = 6 || m = 9 || m = 11 then 30
  else 31

/-- Month parser for strptime's %m followed by the literal dash: a
two-digit month (01..12) whose next character is the dash, or a one-digit
month (1..9) followed by the dash.  Mirrors the regex alternation
1[0-2]|0[1-9]|[1-9] plus the literal - that must follow. -/
def parseMonthDash : List Char → Option (Nat × List Char)
  | a :: b :: '-' :: rest =>
    if a.isDigit && b.isDigit && 1 ≤ 10 * digitVal a + digitVal b
        && 10 * digitVal a + digitVal b ≤ 12 then
      some (10 * digitVal a + digitVal b, rest)
    else if a.isDigit && 1 ≤ digitVal a && b = '-' then
      some (digitVal a, '-' :: rest)
    else none
  | a :: '-' :: rest =>
    if a.isDigit && 1 ≤ digitVal a then some (digitVal a, rest) else none
  | _ => none

/-- Day parser for strptime's %d at the end of the input: a two-digit day
01..31 or a one-digit day 1..9, consuming the whole remainder (strptime
rejects trailing unconverted data).  Mirrors 3[01]|[12]\d|0[1-9]|[1-9]. -/
def parseDayEnd : List Char → Option Nat
  | [a] => if a.isDigit && 1 ≤ digitVal a then some (digitVal a) else none
  | [a, b] =>
    if a.isDigit && b.isDigit && 1 ≤ 10 * digitVal a + digitVal b
        && 10 * digitVal a + digitVal b ≤ 31 then
      some (10 * digitVal a + digitVal b)
    else none
  | _ => none

/-- Numeric value of the four-digit year component. -/
def yearVal (y1 y2 y3 y4 : Char) : Nat :=
  ((digitVal y1 * 10 + digitVal y2) * 10 + digitVal y3) * 10 + digitVal y4

/-- Model of datetime.strptime(s, "%Y-%m-%d"): four year digits, dash,
month, dash, day, end of string, then datetime's range validation
(year at least 1, day within the month).  Returns none where Python
raises ValueError. -/
def parseDateYMD (s : String) : Option Date :=
  match s.data with
  | y1 :: y2 :: y3 :: y4 :: '-' :: rest =>
    if y1.isDigit && y2.isDigit && y3.isDigit && y4.isDigit then
      match parseMonthDash rest with
      | some (m, rest2) =>
        match parseDayEnd rest2 with
        | some d =>
          if 1 ≤ yearVal y1 y2 y3 y4 && 1 ≤ d && d ≤ daysInMonth (yearVal y1 y2 y3 y4) m then
            some ⟨yearVal y1 y2 y3 y4, m, d⟩
          else none
        | none => none
      | none => none
    else none
  | _ => none

/-- Left-pad a numeral with zeros, as strftime does for %Y/%m/%d. -/
def padNum (width n : Nat) : String :=
  let s := toString n
  String.mk (List.replicate (width - s.length) '0') ++ s

/-- Model of strftime("%Y-%m-%d") on a date value. -/
def fmtYMD (d : Date) : String :=
  padNum 4 d.y ++ "-" ++ padNum 2 d.m ++ "-" ++ padNum 2 d.d

/-- Chronological (calendar) order on dates, the order in which datetime
objects compare. -/
def calLe (a b : Date) : Prop :=
  a.y < b.y ∨ (a.y = b.y ∧ (a.m < b.m ∨ (a.m = b.m ∧ a.d ≤ b.d)))

/-- Numeric sort key equivalent to chronological order for validated
dates (month and day both below 100). -/
def dateKey (d : Date) : Nat := (d.y * 100 + d.m) * 100 + d.d

/-- Truncation of a string to its first n characters, Python slicing
s[:n] (both count code points). -/
def strTake (s : String) (n : Nat) : String := String.mk (s.data.take n)

/-- Join a list of strings with a separator, Python str.join. -/
def strJoin (sep : String) (xs : List String) : String :=
  String.mk (List.intercalate sep.data (xs.map String.data))

/-- Persisted record shape (the fields every entry of data.json carries). -/
structure Record where
  company : String
  model_name : String
  update_date : String
  features : String
  source : String
  link : String
deriving DecidableEq, Repr

/-- State of the data.json file as the tracker can encounter it: missing
(FileNotFoundError), unparsable (json.JSONDecodeError), or a parsed list
of records. -/
inductive StoreState where
  | absent : StoreState
  | corrupt : StoreState
  | valid : List Record → StoreState
deriving DecidableEq, Repr

/-- Model of load_existing_data: the parsed store, or the empty list when
the file is missing or undecodable (both exceptions are caught). -/
def load_existing_data : StoreState → List Record
  | .absent => []
  | .corrupt => []
  | .valid rs => rs

/-- Sort key used by save_data: the parsed update_date.  Inside save_data
the key is only evaluated after every date has been checked to parse
(an unparsable date makes save_data fail instead), so the fallback 0 is
never the value actually sorted on. -/
def keyOf (r : Record) : Nat :=
  match parseDateYMD r.update_date with
  | some d => dateKey d
  | none => 0

/-- Descending-by-key comparison used when sorting the store. -/
def keyGe (a b : Record) : Bool := keyOf b ≤ keyOf a

/-- Stable insertion of a record into a list sorted descending by key. -/
def insertRec (x : Record) : List Record → List Record
  | [] => [x]
  | y :: ys => if keyGe x y then x :: y :: ys else y :: insertRec x ys

/-- Stable sort descending by parsed update_date, the effect of Python's
data.sort(key=..., reverse=True). -/
def sortRecs : List Record → List Record
  | [] => []
  | x :: xs => insertRec x (sortRecs xs)

/-- Model of save_data: Python computes datetime.strptime on every
record's update_date while sorting, so the call raises (none) as soon as
any record's date is unparsable; otherwise the full list, sorted
descending by date, is written. -/
def save_data (data : List Record) : Option (List Record) :=
  if data.all (fun r => (parseDateYMD r.update_date).isSome) then
    some (sortRecs data)
  else none

/-- Model of is_today_update: strptime the string (any failure, caught by
the bare except, yields false) and compare the date to today's. -/
def is_today_update (today : Date) (update_date : String) : Bool :=
  match parseDateYMD update_date with
  | some d => d = today
  | none => false

/-- Model of is_duplicate: some existing item shares the candidate's
non-empty link, or shares both company and model_name. -/
def is_duplicate (new_item : Record) (existing_data : List Record) : Bool :=
  existing_data.any (fun item =>
    (new_item.link != "" && item.link == new_item.link)
    || (item.company == new_item.company && item.model_name == new_item.model_name))

/-- Consumed length of the maximal-munch run of the regex tail (\.\d+)*
at the head of the input, as matched greedily by Python's re engine
after the leading digit block.  Defined with an explicit fuel bound so
the definition stays structurally recursive (kernel-computable); the
fuel is always sufficient because every consumed group spans at least
two characters. -/
def tailLenF : Nat → List Char → Nat
  | 0, _ => 0
  | fuel + 1, cs =>
    match cs with
    | [] => 0
    | c :: rest =>
      if c = '.' then
        if digitCount rest = 0 then 0
        else 1 + digitCount rest + tailLenF fuel (rest.drop (digitCount rest))
      else 0

/-- Greedy match length of (\.\d+)* at the head of the input. -/
def tailLen (cs : List Char) : Nat := tailLenF cs.length cs

/-- Greedy match length at the head of the input of (\d+\.)*\d+, the
version core of the tag-cleaning regex. -/
def coreLen (cs : List Char) : Nat :=
  let d := digitCount cs
  if d = 0 then 0 else d + tailLen (cs.drop d)

/-- Length of the (unique, leftmost) match of ^v?(\d+\.)*\d+ in the
input, 0 when the regex does not match: with a leading v the core must
follow it, otherwise (also when backtracking drops the optional v) the
core must start the string. -/
def matchLen : List Char → Nat
  | [] => 0
  | c :: rest =>
    if c = 'v' then (if 0 < coreLen rest then 1 + coreLen rest else 0)
    else coreLen (c :: rest)

/-- Characters removed by Python's str.strip() (ASCII whitespace). -/
def isPySpace (c : Char) : Bool :=
  c = ' ' || c = '\t' || c = '\n' || c = '\r' || c = Char.ofNat 11 || c = Char.ofNat 12

/-- Remove the characters satisfying p from both ends of a list, the
effect of str.strip with a fixed character class. -/
def stripEnds (p : Char → Bool) (cs : List Char) : List Char :=
  ((cs.dropWhile p).reverse.dropWhile p).reverse

/-- Trimming applied after the regex substitution: .strip('-') then
.strip(). -/
def pyTrim (cs : List Char) : List Char :=
  stripEnds isPySpace (stripEnds (fun c => c = '-') cs)

/-- Model of the tag cleaning in extract_model_info_from_github:
re.sub(r'^v?(\d+\.)*\d+', '', name).strip('-').strip(). -/
def cleanModelName (s : String) : String :=
  String.mk (pyTrim (s.data.drop (matchLen s.data)))

/-- GitHub release payload as the extractor reads it.  published_at
holds the already-parsed timestamp of the release; none models a missing
field or a string dateutil cannot parse (both raise inside the try and
yield None).  tag_name and name are none when the API response lacks
the key (dict.get). -/
structure Release where
  published_at : Option Date
  tag_name : Option String
  name : Option String
  body : String
  html_url : String
deriving DecidableEq, Repr

/-- Model of extract_model_info_from_github. -/
def extract_model_info_from_github (release : Release) (company : String) : Option Record :=
  match release.published_at with
  | none => none
  | some pub =>
    let raw := release.tag_name.getD (release.name.getD "Unknown")
    let cleaned := cleanModelName raw
    let model_name :=
      if cleaned = "" then company ++ " Model " ++ release.tag_name.getD "Unknown"
      else cleaned
    some
      { company := company
        model_name := model_name
        update_date := fmtYMD pub
        features := strTake release.body 500
        source := "GitHub"
        link := release.html_url }

/-- Hugging Face model descriptor as the extractor reads it: identifier,
optional last-modified timestamp (already parsed), tag list. -/
structure HFModel where
  modelId : String
  lastModified : Option Date
  tags : List String
deriving DecidableEq, Repr

/-- Model of extract_model_info_from_hf.  today stands for
datetime.now(), used when the descriptor has no last-modified stamp;
the try body has no other failure source, so the None branch of the
Python function is unreachable and the result is total. -/
def extract_model_info_from_hf (today : Date) (model : HFModel) (company : String) : Record :=
  { company := company
    model_name := model.modelId
    update_date :=
      match model.lastModified with
      | some d => fmtYMD d
      | none => fmtYMD today
    features :=
      if model.tags.isEmpty then ""
      else "Tags: " ++ strJoin ", " (model.tags.take 5)
    source := "Hugging Face"
    link := "https://huggingface.co/" ++ model.modelId }

/-- RSS feed entry as feedparser exposes it: title, summary (empty when
the feed has none, matching entry.get('summary', '')), link, and the
optional structured published date. -/
structure Entry where
  title : String
  summary : String
  link : String
  published : Option Date
deriving DecidableEq, Repr

/-- ASCII lowercasing of a string, Python str.lower() on the ASCII
strings involved. -/
def strLower (s : String) : String := String.mk (s.data.map Char.toLower)

/-- Boolean substring test, Python's needle in hay on strings. -/
def containsSub (hay needle : List Char) : Bool :=
  needle.isPrefixOf hay ||
    match hay with
    | [] => false
    | _ :: rest => containsSub rest needle

/-- Release-announcement vocabulary checked against the lowercased
title. -/
def releaseVocab : List String :=
  ["release", "launch", "announce", "unveil", "introduce", "available", "new"]

/-- Relevance filter of the RSS stage: some company keyword occurs
case-insensitively in the title or the summary, and some vocabulary word
occurs in the lowercased title. -/
def rssAccept (keywords : List String) (e : Entry) : Bool :=
  (keywords.any (fun k =>
      containsSub (strLower e.title).data (strLower k).data
      || containsSub (strLower e.summary).data (strLower k).data))
  && (releaseVocab.any (fun w => containsSub (strLower e.title).data w.data))

/-- The update_date string computed for an accepted entry: the strftime
of the structured published date when present, today's date otherwise. -/
def rssEntryDate (today : Date) (e : Entry) : String :=
  match e.published with
  | some d => fmtYMD d
  | none => fmtYMD today

/-- Record built from an accepted RSS entry (title verbatim as
model_name, summary truncated to 300 characters). -/
def rssRecord (company : String) (e : Entry) (dateStr : String) : Record :=
  { company := company
    model_name := e.title
    update_date := dateStr
    features := strTake e.summary 300
    source := "Official RSS"
    link := e.link }

/-- Model of fetch_official_rss_updates.  feeds lists, in iteration
order, one element per configured feed: the company, its keyword list
and the entries the feed returned.  Only the first five entries of a
feed are inspected; an entry contributes exactly when it passes the
relevance filter and its date is today. -/
def fetch_official_rss_updates (today : Date) (feeds : List (String × List String × List Entry)) : List Record :=
  feeds.foldl (fun acc f =>
    acc ++ (f.2.2.take 5).filterMap (fun e =>
      if rssAccept f.2.1 e && is_today_update today (rssEntryDate today e) then
        some (rssRecord f.1 e (rssEntryDate today e))
      else none)) []

/-- One company/endpoint step of the GitHub stage: walk the first five
releases the endpoint returned, normalize each, and append it when its
date is today and it is not a duplicate against the store plus everything
accepted so far this run. -/
def githubStep (today : Date) (existing : List Record) (acc : List Record)
    (src : String × List Release) : List Record :=
  (src.2.take 5).foldl (fun acc2 release =>
    match extract_model_info_from_github release src.1 with
    | none => acc2
    | some info =>
      if is_today_update today info.update_date
          && !is_duplicate info (existing ++ acc2) then
        acc2 ++ [info]
      else acc2) acc

/-- Per-company scan of the Hugging Face stage: today_count starts at 0,
the loop breaks once it reaches 2, and every acceptance (today's date,
not a duplicate against pool plus earlier acceptances of this scan)
appends the record and bumps the count.  Returns the records this
company contributes. -/
def hfCompanyScan (today : Date) (company : String) (pool : List Record)
    (count : Nat) : List HFModel → List Record
  | [] => []
  | m :: rest =>
    if 2 ≤ count then []
    else
      let info := extract_model_info_from_hf today m company
      if is_today_update today info.update_date && !is_duplicate info pool then
        info :: hfCompanyScan today company (pool ++ [info]) (count + 1) rest
      else
        hfCompanyScan today company pool count rest

/-- Input of one run: today's date (datetime.now()), the state of
data.json, and the payloads the three source stages received, in
iteration order: per RSS feed the company, keywords and entries; per
GitHub endpoint the company and its releases; per company the Hugging
Face search results. -/
structure RunInput where
  today : Date
  store : StoreState
  rssFeeds : List (String × List String × List Entry)
  githubSrc : List (String × List Release)
  hfSrc : List (String × List HFModel)

/-- Accumulator after the RSS stage of the run: the RSS stage's output,
kept only when not a duplicate of the loaded store plus the records
accepted earlier in the same stage. -/
def runAfterRss (inp : RunInput) : List Record :=
  (fetch_official_rss_updates inp.today inp.rssFeeds).foldl
    (fun acc u =>
      if is_duplicate u (load_existing_data inp.store ++ acc) then acc else acc ++ [u]) []

/-- Accumulator after the GitHub stage of the run. -/
def runAfterGithub (inp : RunInput) : List Record :=
  inp.githubSrc.foldl (githubStep inp.today (load_existing_data inp.store)) (runAfterRss inp)

/-- New records accepted by one run of fetch_all_updates, in acceptance
order: the RSS stage, then the GitHub stage, then the Hugging Face
stage, each stage checking duplication against the store plus all
records accepted earlier in the run. -/
def run_new_updates (inp : RunInput) : List Record :=
  inp.hfSrc.foldl
    (fun acc src =>
      acc ++ hfCompanyScan inp.today src.1 (load_existing_data inp.store ++ acc) 0 src.2)
    (runAfterGithub inp)

/-- Store content written at the end of the run: none when nothing new
was accepted (the file is left untouched) or when save_data raises;
some content when the merged, sorted store is written out. -/
def run_saved_store (inp : RunInput) : Option (List Record) :=
  if run_new_updates inp = [] then none
  else save_data (load_existing_data inp.store ++ run_new_updates inp)

/-- Compatibility of two store records, the uniqueness invariant read
pairwise: they do not share a non-empty link, and they do not share both
company and model_name. -/
def okPair (a b : Record) : Prop :=
  ¬(a.link = b.link ∧ a.link ≠ "") ∧ ¬(a.company = b.company ∧ a.model_name = b.model_name)

/-- Uniqueness invariant of a store: every pair of records is
compatible. -/
def UniqStore (l : List Record) : Prop := l.Pairwise okPair

/-- Version-number core read off the spec's wording with zero or more
groups: a bare digit block (zero groups, then trailing digits), or a
digit-block-and-dot group followed by a smaller core. -/
inductive VerNum : List Char → Prop where
  | digits (ds : List Char) (h1 : ds ≠ []) (h2 : ∀ c ∈ ds, c.isDigit = true) : VerNum ds
  | group (ds : List Char) (h1 : ds ≠ []) (h2 : ∀ c ∈ ds, c.isDigit = true)
      (rest : List Char) (hr : VerNum rest) : VerNum (ds ++ '.' :: rest)

/-- Version-number pattern with at least one digits-and-dot group, the
claim's stated prefix shape: digits, a dot, then a zero-or-more core. -/
def VerNumOne (cs : List Char) : Prop :=
  ∃ ds rest, ds ≠ [] ∧ (∀ c ∈ ds, c.isDigit = true) ∧ VerNum rest ∧ cs = ds ++ '.' :: rest

/-- Executable acceptor for the continuation of a version core after at
least one digit of the current block has been read: more digits continue
the block, a dot must open a fresh digit block, anything else ends the
match attempt. -/
def coreTail : List Char → Bool
  | [] => true
  | c :: rest =>
    if c.isDigit then coreTail rest
    else if c = '.' then
      match rest with
      | [] => false
      | c2 :: r2 => c2.isDigit && coreTail r2
    else false

/-- Executable acceptor of the zero-or-more version core
(\d+\.)*\d+. -/
def specCore (cs : List Char) : Bool :=
  match cs with
  | [] => false
  | c :: rest => c.isDigit && coreTail rest

/-- Executable acceptor of the whole zero-or-more prefix pattern
v?(\d+\.)*\d+. -/
def specPat0 : List Char → Bool
  | [] => false
  | c :: rest => if c = 'v' then specCore rest else specCore (c :: rest)

/-- Executable acceptor of the claim's one-or-more prefix pattern
v?(\d+\.)+\d+: a zero-or-more core that contains at least one dot. -/
def specPat1 : List Char → Bool
  | [] => false
  | c :: rest =>
    if c = 'v' then specCore rest && rest.any (fun x => x = '.')
    else specCore (c :: rest) && (c :: rest).any (fun x => x = '.')

/-- Length of the longest prefix of cs accepted by pat (0 when no
prefix is accepted; the empty prefix is never accepted). -/
def longestPat (pat : List Char → Bool) (cs : List Char) : Nat :=
  (((List.range (cs.length + 1)).filter (fun k => pat (cs.take k))).foldr max 0)

/-- Normalizer written from the spec's sentence, parameterized by the
prefix pattern: strip the longest leading version-number prefix, then
trim surrounding dashes and whitespace. -/
def specCleanWith (pat : List Char → Bool) (s : String) : String :=
  String.mk (pyTrim (s.data.drop (longestPat pat s.data)))

/-- Spec-worded normalizer with the zero-or-more pattern (the amended
reading). -/
def specClean0 (s : String) : String := specCleanWith specPat0 s

/-- Spec-worded normalizer with the one-or-more pattern (the claim as
stated). -/
def specClean1 (s : String) : String := specCleanWith specPat1 s

/-- Fixed current date used by the concrete scenarios. -/
def dW : Date := ⟨2025, 10, 12⟩

/-- Keyword list of the Anthropic company profile. -/
def anthroKeywords : List String := ["claude", "sonnet", "opus", "haiku"]

/-- Scenario B: record already present in the store, with the link the
new candidate will collide on. -/
def recB : Record :=
  { company := "Anthropic"
    model_name := "Claude 3"
    update_date := "2025-01-01"
    features := ""
    source := "Official RSS"
    link := "https://x/y" }

/-- Scenario B: RSS entry whose link equals the stored record's link. -/
def entryB : Entry :=
  { title := "Anthropic releases Claude"
    summary := "claude improvements"
    link := "https://x/y"
    published := some dW }

/-- Scenario B candidate as the RSS stage builds it. -/
def candB : Record := rssRecord "Anthropic" entryB (rssEntryDate dW entryB)

/-- Scenario B run input: store holding recB, one feed producing entryB,
no GitHub or Hugging Face payloads. -/
def inpB : RunInput :=
  { today := dW
    store := .valid [recB]
    rssFeeds := [("Anthropic", anthroKeywords, [entryB])]
    githubSrc := []
    hfSrc := [] }

/-- Scenario C: entry with a keyword in the summary but no
release-vocabulary word in the title. -/
def entryC : Entry :=
  { title := "Acme raises funding"
    summary := "Series B for the claude maker"
    link := "https://acme/x"
    published := some dW }

/-- Scenario A: GitHub release published today with tag v2.1-turbo. -/
def relA : Release :=
  { published_at := some dW
    tag_name := some "v2.1-turbo"
    name := none
    body := "Adds turbo mode"
    html_url := "https://github.com/openai/openai-python/releases/tag/v2.1-turbo" }

/-- Release whose tag is stripped to nothing, exercising the placeholder
fallback. -/
def relEmpty : Release :=
  { published_at := some dW
    tag_name := some "v1.0"
    name := none
    body := ""
    html_url := "https://github.com/openai/openai-python/releases/tag/v1.0" }

/-- Counterexample release: tag v2-turbo has no digits-dot group, yet
the code strips the v2 prefix. -/
def relV2 : Release :=
  { published_at := some dW
    tag_name := some "v2-turbo"
    name := none
    body := ""
    html_url := "https://github.com/openai/openai-python/releases/tag/v2-turbo" }

/-- Scenario D: three Hugging Face models all last-modified today. -/
def hfmW1 : HFModel := { modelId := "deepseek-ai/DeepSeek-V9", lastModified := some dW, tags := ["text-generation"] }

/-- Scenario D, second model. -/
def hfmW2 : HFModel := { modelId := "deepseek-ai/DeepSeek-Coder-V9", lastModified := some dW, tags := [] }

/-- Scenario D, third model. -/
def hfmW3 : HFModel := { modelId := "community/DeepSeek-V9-GGUF", lastModified := some dW, tags := ["gguf"] }

/-- Witness entry accepted by the RSS stage (keyword and vocabulary word
in the title, published today). -/
def entryW : Entry :=
  { title := "Anthropic releases Claude Next"
    summary := "claude gets faster"
    link := "https://www.anthropic.com/news/claude-next"
    published := some dW }

/-- Witness run input: empty store, one feed producing entryW. -/
def inpW : RunInput :=
  { today := dW
    store := .valid []
    rssFeeds := [("Anthropic", anthroKeywords, [entryW])]
    githubSrc := []
    hfSrc := [] }

/-- Witness record accepted by the run on inpW. -/
def candW : Record := rssRecord "Anthropic" entryW (rssEntryDate dW entryW)

/-- Witness entries with identical titles but different links. -/
def entryX : Entry :=
  { title := "Anthropic introduces Claude Omega"
    summary := "claude omega"
    link := "https://www.anthropic.com/news/omega-a"
    published := some dW }

/-- Second witness entry, same title as entryX, different link. -/
def entryY : Entry :=
  { title := "Anthropic introduces Claude Omega"
    summary := "claude omega mirror"
    link := "https://mirror.example/omega-b"
    published := some dW }

/-- Witness records for the save-sort theorem. -/
def recS1 : Record :=
  { company := "OpenAI", model_name := "a", update_date := "2025-01-02"
    features := "", source := "GitHub", link := "https://g/1" }

/-- Second save-sort witness record, dated later than recS1. -/
def recS2 : Record :=
  { company := "Google", model_name := "b", update_date := "2025-03-04"
    features := "", source := "GitHub", link := "https://g/2" }

/-- Folding preserves a predicate when every step taken on a list element
does. -/
theorem foldl_mem_preserve {α β : Type _} (P : β → Prop) :
    ∀ (xs : List α) (f : β → α → β), (∀ acc x, x ∈ xs → P acc → P (f acc x)) →
      ∀ acc, P acc → P (xs.foldl f acc) := by
  intro xs
  induction xs with
  | nil => intro f _ acc hacc; simpa using hacc
  | cons x xs ih =>
    intro f h acc hacc
    simp only [List.foldl_cons]
    exact ih f (fun a y hy ha => h a y (List.mem_cons_of_mem _ hy) ha) _
      (h acc x (List.mem_cons_self _ _) hacc)

/-- Unfolding of the duplicate test into its two sharing conditions. -/
theorem is_duplicate_eq_true_iff (u : Record) (pool : List Record) :
    is_duplicate u pool = true ↔
      ∃ item ∈ pool, (u.link ≠ "" ∧ item.link = u.link) ∨
        (item.company = u.company ∧ item.model_name = u.model_name) := by
  simp [is_duplicate, List.any_eq_true, Bool.or_eq_true, Bool.and_eq_true,
    bne_iff_ne, beq_iff_eq]

/-- A candidate that is not a duplicate of the pool is pairwise
compatible with every pool record. -/
theorem okPair_of_not_dup {u : Record} {pool : List Record}
    (h : is_duplicate u pool = false) : ∀ item ∈ pool, okPair item u := by
  intro item hitem
  have hnot : ¬ is_duplicate u pool = true := by simp [h]
  rw [is_duplicate_eq_true_iff] at hnot
  push_neg at hnot
  have h2 := hnot item hitem
  constructor
  · rintro ⟨hlink, hne⟩
    exact h2.1 (by rw [hlink] at hne; exact hne) hlink
  · rintro ⟨hc, hm⟩
    exact h2.2 hc hm

/-- Pairwise compatibility is symmetric. -/
theorem okPair_symm {a b : Record} (h : okPair a b) : okPair b a := by
  obtain ⟨h1, h2⟩ := h
  refine ⟨fun hc => h1 ⟨hc.1.symm, by rw [hc.1] at hc; exact hc.2⟩,
    fun hc => h2 ⟨hc.1.symm, hc.2.symm⟩⟩

/-- Appending a non-duplicate candidate preserves the uniqueness
invariant. -/
theorem uniq_append_single {L : List Record} {u : Record}
    (hL : UniqStore L) (hdup : is_duplicate u L = false) : UniqStore (L ++ [u]) := by
  rw [UniqStore, List.pairwise_append]
  refine ⟨hL, List.pairwise_singleton _ _, fun a ha b hb => ?_⟩
  rw [List.mem_singleton] at hb
  subst hb
  exact okPair_of_not_dup hdup a ha

/-- C8: load_existing_data returns the stored sequence, and the empty
sequence when the file is absent or unparsable; it is a total function,
so no store state makes the load step fail the run. -/
theorem c8_load_never_fails :
    (load_existing_data .absent = [] ∧ load_existing_data .corrupt = []) ∧
      ∀ rs, load_existing_data (.valid rs) = rs :=
  ⟨⟨rfl, rfl⟩, fun _ => rfl⟩

/-- C9: save_data strptimes every record's update_date before writing:
it fails exactly when some record of the list (wherever it came from,
including unchanged records loaded from the prior store) has a date the
format %Y-%m-%d cannot parse, and succeeds whenever every date is
well-formed. -/
theorem c9_save_date_gate :
    ∀ l, save_data l = none ↔ ∃ r ∈ l, parseDateYMD r.update_date = none := by
  intro l
  unfold save_data
  split_ifs with h
  · rw [List.all_eq_true] at h
    simp only [reduceCtorEq, false_iff]
    rintro ⟨r, hr, hnone⟩
    have := h r hr
    rw [hnone] at this
    simp at this
  · simp only [true_iff]
    have h' : l.all (fun r => (parseDateYMD r.update_date).isSome) = false := by
      cases hb : l.all (fun r => (parseDateYMD r.update_date).isSome) with
      | true => exact absurd hb h
      | false => rfl
    rw [List.all_eq_false] at h'
    obtain ⟨r, hr, hsome⟩ := h'
    exact ⟨r, hr, by cases hp : parseDateYMD r.update_date with
      | some d => rw [hp] at hsome; simp at hsome
      | none => rfl⟩

set_option maxRecDepth 8192 in
/-- C1: is_duplicate holds exactly when some pool record shares the
candidate's non-empty link or shares both company and model_name; in
Scenario B a candidate produced by RSS polling whose link equals a
stored record's link is rejected, no new record is accepted, and the
store is not rewritten. -/
theorem c1_is_duplicate_characterization :
    (∀ u pool, is_duplicate u pool = true ↔
        ∃ item ∈ pool, (u.link ≠ "" ∧ item.link = u.link) ∨
          (item.company = u.company ∧ item.model_name = u.model_name)) ∧
      fetch_official_rss_updates dW inpB.rssFeeds = [candB] ∧
      is_duplicate candB [recB] = true ∧
      run_new_updates inpB = [] ∧ run_saved_store inpB = none :=
  ⟨is_duplicate_eq_true_iff, by decide, by decide, by decide, by decide⟩

/-- C10: an accepted RSS entry's model_name is the entry title verbatim,
so two same-company entries with equal titles collide on the
(company, model_name) rule even when their links differ. -/
theorem c10_rss_title_verbatim :
    (∀ company e dateStr, (rssRecord company e dateStr).model_name = e.title) ∧
      ∀ company e1 e2 d1 d2, e1.title = e2.title →
        is_duplicate (rssRecord company e2 d2) [rssRecord company e1 d1] = true := by
  refine ⟨fun _ _ _ => rfl, fun company e1 e2 d1 d2 ht => ?_⟩
  simp [is_duplicate, rssRecord, ht]

/-- Witness for C10 at concrete entries with the same title but
different links. -/
theorem c10_rss_title_verbatim_witness :
    is_duplicate (rssRecord "Anthropic" entryY "2025-10-12")
      [rssRecord "Anthropic" entryX "2025-10-12"] = true :=
  c10_rss_title_verbatim.2 "Anthropic" entryX entryY "2025-10-12" "2025-10-12" rfl

/-- The boolean substring test agrees with the contiguous-sublist
relation. -/
theorem containsSub_iff (hay needle : List Char) :
    containsSub hay needle = true ↔ needle <:+: hay := by
  induction hay with
  | nil =>
    rw [containsSub]
    simp only [Bool.or_false]
    rw [ List.isPrefixOf_iff_prefix, List.prefix_nil, List.infix_nil]
  | cons a hay ih =>
    rw [containsSub]
    simp only [Bool.or_eq_true,  List.isPrefixOf_iff_prefix, ih]
    exact (List.infix_cons_iff).symm

/-- C5: an RSS entry passes the relevance filter exactly when some
company keyword occurs case-insensitively as a substring of the title or
the summary and some word of the fixed release vocabulary occurs as a
substring of the lowercased title; the Scenario C entry (keyword in the
summary, no vocabulary word in the title) is rejected whatever today's
date is. -/
theorem c5_rss_relevance_filter :
    (∀ kws e, rssAccept kws e = true ↔
        ((∃ k ∈ kws, (strLower k).data <:+: (strLower e.title).data ∨
            (strLower k).data <:+: (strLower e.summary).data) ∧
          ∃ w ∈ releaseVocab, w.data <:+: (strLower e.title).data)) ∧
      rssAccept anthroKeywords entryC = false ∧
      ∀ today, fetch_official_rss_updates today
        [("Anthropic", anthroKeywords, [entryC])] = [] := by
  refine ⟨fun kws e => ?_, by decide, fun today => ?_⟩
  · simp [rssAccept, List.any_eq_true, containsSub_iff]
  · have hacc : rssAccept anthroKeywords entryC = false := by decide
    simp [fetch_official_rss_updates, hacc]

/-- Per-count cap of the Hugging Face company scan. -/
theorem hfCompanyScan_length_le :
    ∀ (today : Date) (company : String) (ms : List HFModel) (pool : List Record)
      (count : Nat), (hfCompanyScan today company pool count ms).length ≤ 2 - count := by
  intro today company ms
  induction ms with
  | nil => intro pool count; simp [hfCompanyScan]
  | cons m rest ih =>
    intro pool count
    simp only [hfCompanyScan]
    split_ifs with h1 h2
    · simp
    · have := ih (pool ++ [extract_model_info_from_hf today m company]) (count + 1)
      simp only [List.length_cons]
      omega
    · exact ih pool count

/-- C6: the Hugging Face stage accepts at most two records per company,
a scan whose counter has reached two inspects nothing further, and on
the Scenario D payload (three models all modified today, none a
duplicate) exactly the first two models in the returned order are
accepted. -/
theorem c6_hf_company_cap :
    (∀ today company pool ms, (hfCompanyScan today company pool 0 ms).length ≤ 2) ∧
      (∀ today company pool ms, hfCompanyScan today company pool 2 ms = []) ∧
      hfCompanyScan dW "DeepSeek" [] 0 [hfmW1, hfmW2, hfmW3] =
        [extract_model_info_from_hf dW hfmW1 "DeepSeek",
          extract_model_info_from_hf dW hfmW2 "DeepSeek"] := by
  refine ⟨fun today company pool ms => ?_, fun today company pool ms => ?_, by decide⟩
  · simpa using hfCompanyScan_length_le today company ms pool 0
  · cases ms <;> simp [hfCompanyScan]

/-- Every record the RSS stage emits carries a date equal to today. -/
theorem rss_updates_today (today : Date) (feeds : List (String × List String × List Entry)) :
    ∀ r ∈ fetch_official_rss_updates today feeds,
      is_today_update today r.update_date = true := by
  unfold fetch_official_rss_updates
  refine foldl_mem_preserve
    (fun (l : List Record) => ∀ r ∈ l, is_today_update today r.update_date = true) feeds _
    ?_ [] (by simp)
  intro acc f _ hacc r hr
  rcases List.mem_append.mp hr with h | h
  · exact hacc r h
  · obtain ⟨e, _, heq⟩ := List.mem_filterMap.mp h
    split_ifs at heq with hc
    · cases heq
      simp only [Bool.and_eq_true] at hc
      exact hc.2

/-- githubStep only accepts candidates dated today. -/
theorem githubStep_today (today : Date) (existing acc : List Record)
    (src : String × List Release)
    (hacc : ∀ r ∈ acc, is_today_update today r.update_date = true) :
    ∀ r ∈ githubStep today existing acc src,
      is_today_update today r.update_date = true := by
  unfold githubStep
  refine foldl_mem_preserve
    (fun (l : List Record) => ∀ r ∈ l, is_today_update today r.update_date = true) _ _
    ?_ acc hacc
  intro acc2 release _ hacc2 r hr
  split at hr
  · exact hacc2 r hr
  · split_ifs at hr with hg
    · rcases List.mem_append.mp hr with h | h
      · exact hacc2 r h
      · rw [List.mem_singleton] at h
        subst h
        simp only [Bool.and_eq_true] at hg
        exact hg.1
    · exact hacc2 r hr

/-- Records returned by the Hugging Face company scan are dated
today. -/
theorem hfCompanyScan_today (today : Date) (company : String) :
    ∀ (ms : List HFModel) (pool : List Record) (count : Nat) r,
      r ∈ hfCompanyScan today company pool count ms →
        is_today_update today r.update_date = true := by
  intro ms
  induction ms with
  | nil => intro pool count r hr; simp [hfCompanyScan] at hr
  | cons m rest ih =>
    intro pool count r hr
    simp only [hfCompanyScan] at hr
    split_ifs at hr with h1 h2
    · simp at hr
    · rcases List.mem_cons.mp hr with h | h
      · subst h
        simp only [Bool.and_eq_true] at h2
        exact h2.1
      · exact ih _ _ r h
    · exact ih _ _ r hr

/-- C2: every record accepted by a run is dated today (candidates whose
update_date differs from the current date are excluded at every source
stage), and the date test yields false, without raising, on every string
the %Y-%m-%d format cannot parse. -/
theorem c2_today_filter :
    (∀ inp r, r ∈ run_new_updates inp → is_today_update inp.today r.update_date = true) ∧
      ∀ today s, parseDateYMD s = none → is_today_update today s = false := by
  constructor
  · intro inp r hr
    have hrss : ∀ x ∈ runAfterRss inp, is_today_update inp.today x.update_date = true := by
      unfold runAfterRss
      refine foldl_mem_preserve
        (fun (l : List Record) => ∀ x ∈ l, is_today_update inp.today x.update_date = true) _ _
        ?_ [] (by simp)
      intro acc u hu hacc x hx
      split_ifs at hx
      · exact hacc x hx
      · rcases List.mem_append.mp hx with h | h
        · exact hacc x h
        · rw [List.mem_singleton] at h
          subst h
          exact rss_updates_today inp.today inp.rssFeeds x hu
    have hgh : ∀ x ∈ runAfterGithub inp, is_today_update inp.today x.update_date = true := by
      unfold runAfterGithub
      exact foldl_mem_preserve
        (fun (l : List Record) => ∀ x ∈ l, is_today_update inp.today x.update_date = true) _ _
        (fun acc src _ hacc => githubStep_today inp.today _ acc src hacc) _ hrss
    exact foldl_mem_preserve
      (fun (l : List Record) => ∀ x ∈ l, is_today_update inp.today x.update_date = true)
      inp.hfSrc _
      (fun acc src _ hacc x hx => by
        rcases List.mem_append.mp hx with h | h
        · exact hacc x h
        · exact hfCompanyScan_today inp.today src.1 src.2 _ 0 x h) _ hgh r hr
  · intro today s h
    unfold is_today_update
    rw [h]

/-- Witness for C2: the run on inpW accepts exactly candW, whose date is
today, and an unparsable date string is never today. -/
theorem c2_today_filter_witness :
    is_today_update dW candW.update_date = true ∧
      is_today_update dW "not-a-date" = false :=
  ⟨c2_today_filter.1 inpW candW (by decide),
    c2_today_filter.2 dW "not-a-date" (by decide)⟩

/-- Boolean helper: a hypothesis refuting equality with true gives
falsehood of the boolean. -/
theorem bool_eq_false {b : Bool} (h : ¬b = true) : b = false := by
  cases b
  · rfl
  · exact absurd rfl h

/-- Inserting into the sorted accumulator permutes. -/
theorem insertRec_perm (x : Record) : ∀ l, List.Perm (insertRec x l) (x :: l) := by
  intro l
  induction l with
  | nil => exact List.Perm.refl _
  | cons y ys ih =>
    rw [insertRec]
    split_ifs
    · exact List.Perm.refl _
    · exact (ih.cons y).trans (List.Perm.swap x y ys)

/-- The save-time sort permutes the record list. -/
theorem sortRecs_perm : ∀ l, List.Perm (sortRecs l) l := by
  intro l
  induction l with
  | nil => exact List.Perm.refl _
  | cons x xs ih =>
    rw [sortRecs]
    exact (insertRec_perm x _).trans (ih.cons x)

/-- The RSS stage preserves the uniqueness invariant of store plus
accepted records. -/
theorem runAfterRss_uniq (inp : RunInput)
    (h : UniqStore (load_existing_data inp.store)) :
    UniqStore (load_existing_data inp.store ++ runAfterRss inp) := by
  unfold runAfterRss
  refine foldl_mem_preserve
    (fun (l : List Record) => UniqStore (load_existing_data inp.store ++ l)) _ _
    ?_ [] (by simpa using h)
  intro acc u _ hacc
  split_ifs with hdup
  · exact hacc
  · rw [← List.append_assoc]
    exact uniq_append_single hacc (bool_eq_false hdup)

/-- githubStep preserves the uniqueness invariant of store plus
accepted records. -/
theorem githubStep_uniq (today : Date) (existing acc : List Record)
    (src : String × List Release) (hacc : UniqStore (existing ++ acc)) :
    UniqStore (existing ++ githubStep today existing acc src) := by
  unfold githubStep
  refine foldl_mem_preserve
    (fun (l : List Record) => UniqStore (existing ++ l)) _ _ ?_ acc hacc
  intro acc2 release _ hacc2
  split
  · exact hacc2
  · split_ifs with hg
    · rw [← List.append_assoc]
      apply uniq_append_single hacc2
      simp only [Bool.and_eq_true, Bool.not_eq_true'] at hg
      exact hg.2
    · exact hacc2

/-- The Hugging Face company scan preserves the uniqueness invariant of
its pool. -/
theorem hfCompanyScan_uniq (today : Date) (company : String) :
    ∀ (ms : List HFModel) (pool : List Record) (count : Nat), UniqStore pool →
      UniqStore (pool ++ hfCompanyScan today company pool count ms) := by
  intro ms
  induction ms with
  | nil => intro pool count h; simpa [hfCompanyScan] using h
  | cons m rest ih =>
    intro pool count h
    simp only [hfCompanyScan]
    split_ifs with h1 h2
    · simpa using h
    · rw [List.append_cons]
      apply ih
      apply uniq_append_single h
      simp only [Bool.and_eq_true, Bool.not_eq_true'] at h2
      exact h2.2
    · exact ih pool count h

/-- A whole run preserves the uniqueness invariant of store plus
accepted records. -/
theorem run_new_updates_uniq (inp : RunInput)
    (h : UniqStore (load_existing_data inp.store)) :
    UniqStore (load_existing_data inp.store ++ run_new_updates inp) := by
  unfold run_new_updates
  have hgh : UniqStore (load_existing_data inp.store ++ runAfterGithub inp) := by
    unfold runAfterGithub
    exact foldl_mem_preserve
      (fun (l : List Record) => UniqStore (load_existing_data inp.store ++ l)) _ _
      (fun acc src _ hacc => githubStep_uniq inp.today _ acc src hacc) _
      (runAfterRss_uniq inp h)
  refine foldl_mem_preserve
    (fun (l : List Record) => UniqStore (load_existing_data inp.store ++ l)) _ _
    ?_ _ hgh
  intro acc src _ hacc
  rw [← List.append_assoc]
  exact hfCompanyScan_uniq inp.today src.1 src.2 _ 0 hacc

/-- C3: when the loaded store satisfies the uniqueness invariant (no two
records share a non-empty link, none share the company and model_name
pair), the merged, sorted store written at the end of the run satisfies
it as well, since every accepted candidate was checked against the
existing store plus all records accepted earlier in the run. -/
theorem c3_uniqueness_invariant :
    ∀ inp out, UniqStore (load_existing_data inp.store) →
      run_saved_store inp = some out → UniqStore out := by
  intro inp out h hsave
  unfold run_saved_store at hsave
  split_ifs at hsave
  unfold save_data at hsave
  split_ifs at hsave
  rw [Option.some_inj] at hsave
  subst hsave
  exact List.Pairwise.perm (run_new_updates_uniq inp h)
    (sortRecs_perm _).symm (fun hxy => okPair_symm hxy)

/-- Witness for C3 at a concrete run: the empty store is unique and the
run on inpW writes the one-record store holding candW, which is
unique. -/
theorem c3_uniqueness_invariant_witness : UniqStore [candW] :=
  c3_uniqueness_invariant inpW [candW] (by simp [UniqStore, load_existing_data, inpW])
    (by decide)

/-- Digit characters have value at most nine. -/
theorem digitVal_le_nine {c : Char} (h : c.isDigit = true) : digitVal c ≤ 9 := by
  simp only [Char.isDigit, Bool.and_eq_true, decide_eq_true_eq] at h
  have h2 : c.val.toNat ≤ 57 := h.2
  have h0 : ('0'.toNat) = 48 := rfl
  have hc : c.toNat = c.val.toNat := rfl
  unfold digitVal
  omega

/-- The month parser only yields calendar months. -/
theorem parseMonthDash_bounds :
    ∀ {cs : List Char} {m : Nat} {rest : List Char},
      parseMonthDash cs = some (m, rest) → 1 ≤ m ∧ m ≤ 12 := by
  intro cs m rest h
  unfold parseMonthDash at h
  split at h
  · split_ifs at h with h1 h2
    · simp only [Bool.and_eq_true, decide_eq_true_eq] at h1
      simp only [Option.some_inj, Prod.mk.injEq] at h
      omega
    · simp only [Bool.and_eq_true, decide_eq_true_eq] at h2
      simp only [Option.some_inj, Prod.mk.injEq] at h
      have := digitVal_le_nine h2.1.1
      omega
  · split_ifs at h with h1
    simp only [Bool.and_eq_true, decide_eq_true_eq] at h1
    simp only [Option.some_inj, Prod.mk.injEq] at h
    have := digitVal_le_nine h1.1
    omega
  · exact absurd h (by simp)

/-- The day parser only yields values between 1 and 31. -/
theorem parseDayEnd_bounds :
    ∀ {cs : List Char} {d : Nat}, parseDayEnd cs = some d → 1 ≤ d ∧ d ≤ 31 := by
  intro cs d h
  unfold parseDayEnd at h
  split at h
  · split_ifs at h with h1
    simp only [Bool.and_eq_true, decide_eq_true_eq] at h1
    rw [Option.some_inj] at h
    have := digitVal_le_nine h1.1
    omega
  · split_ifs at h with h1
    simp only [Bool.and_eq_true, decide_eq_true_eq] at h1
    rw [Option.some_inj] at h
    omega
  · exact absurd h (by simp)

/-- No month is longer than 31 days. -/
theorem daysInMonth_le (y m : Nat) : daysInMonth y m ≤ 31 := by
  unfold daysInMonth
  split_ifs <;> omega

/-- Dates produced by the parser have calendar-range month and day
components. -/
theorem parseDateYMD_bounds :
    ∀ {s : String} {dt : Date}, parseDateYMD s = some dt →
      1 ≤ dt.m ∧ dt.m ≤ 12 ∧ 1 ≤ dt.d ∧ dt.d ≤ 31 := by
  intro s dt h
  unfold parseDateYMD at h
  split at h
  · split_ifs at h with hds
    split at h
    · split at h
      · split_ifs at h with hval
        rw [Option.some_inj] at h
        subst h
        simp only [Bool.and_eq_true, decide_eq_true_eq] at hval
        rename_i y1 y2 y3 y4 rest heq mrest m rest2 hm drest d hd
        have hmb := parseMonthDash_bounds hm
        have hdb := parseDayEnd_bounds hd
        have hle := daysInMonth_le (yearVal y1 y2 y3 y4) m
        refine ⟨hmb.1, hmb.2, hval.1.2, ?_⟩
        show d ≤ 31
        omega
      · exact absurd h (by simp)
    · exact absurd h (by simp)
  · exact absurd h (by simp)

/-- Chronological order follows from the numeric key order once month
and day are in calendar range. -/
theorem calLe_of_dateKey_le {a b : Date} (ham : a.m ≤ 12) (had : a.d ≤ 31)
    (hbm : b.m ≤ 12) (hbd : b.d ≤ 31) (h : dateKey a ≤ dateKey b) : calLe a b := by
  unfold dateKey at h
  unfold calLe
  omega

/-- Inserting into a descending-sorted accumulator keeps it sorted. -/
theorem insertRec_sorted {l : List Record} (x : Record)
    (h : l.Pairwise (fun a b => keyOf b ≤ keyOf a)) :
    (insertRec x l).Pairwise (fun a b => keyOf b ≤ keyOf a) := by
  induction l with
  | nil => simp [insertRec]
  | cons y ys ih =>
    rw [insertRec]
    rw [List.pairwise_cons] at h
    split_ifs with hk
    · rw [List.pairwise_cons]
      have hyx : keyOf y ≤ keyOf x := by simpa [keyGe] using hk
      refine ⟨?_, List.pairwise_cons.mpr h⟩
      intro b hb
      rcases List.mem_cons.mp hb with hby | hb'
      · subst hby; exact hyx
      · exact le_trans (h.1 b hb') hyx
    · rw [List.pairwise_cons]
      have hxy : keyOf x ≤ keyOf y := by
        have := bool_eq_false hk
        simp only [keyGe, decide_eq_false_iff_not, not_le] at this
        exact le_of_lt this
      refine ⟨?_, ih h.2⟩
      intro b hb
      rcases List.mem_cons.mp ((insertRec_perm x ys).mem_iff.mp hb) with hbx | hb'
      · subst hbx; exact hxy
      · exact h.1 b hb'

/-- The save-time sort produces a descending-sorted list. -/
theorem sortRecs_sorted : ∀ l, (sortRecs l).Pairwise (fun a b => keyOf b ≤ keyOf a) := by
  intro l
  induction l with
  | nil => simp [sortRecs]
  | cons x xs ih =>
    rw [sortRecs]
    exact insertRec_sorted x ih

/-- C4: every store save_data writes is sorted descending by
update_date: whenever the save succeeds (all dates well-formed), every
adjacent pair of the written sequence has parseable dates in descending
calendar order. -/
theorem c4_save_sorted :
    ∀ l out, save_data l = some out →
      List.Chain' (fun r1 r2 => ∃ d1 d2, parseDateYMD r1.update_date = some d1 ∧
        parseDateYMD r2.update_date = some d2 ∧ calLe d2 d1) out := by
  intro l out h
  unfold save_data at h
  split_ifs at h with hall
  rw [Option.some_inj] at h
  subst h
  have hmem : ∀ r ∈ sortRecs l, (parseDateYMD r.update_date).isSome = true := by
    intro r hr
    exact List.all_eq_true.mp hall r ((sortRecs_perm l).mem_iff.mp hr)
  refine List.Pairwise.chain' ?_
  refine List.Pairwise.imp_of_mem ?_ (sortRecs_sorted l)
  intro a b ha hb hk
  obtain ⟨da, hda⟩ := Option.isSome_iff_exists.mp (hmem a ha)
  obtain ⟨db, hdb⟩ := Option.isSome_iff_exists.mp (hmem b hb)
  refine ⟨da, db, hda, hdb, ?_⟩
  have hba : keyOf b ≤ keyOf a := hk
  unfold keyOf at hba
  rw [hda, hdb] at hba
  have hab := parseDateYMD_bounds hda
  have hbb := parseDateYMD_bounds hdb
  exact calLe_of_dateKey_le hbb.2.1 hbb.2.2.2 hab.2.1 hab.2.2.2 hba

/-- Witness for C4: the concrete two-record list saves to the
descending order recS2 then recS1. -/
theorem c4_save_sorted_witness :
    List.Chain' (fun r1 r2 => ∃ d1 d2, parseDateYMD r1.update_date = some d1 ∧
      parseDateYMD r2.update_date = some d2 ∧ calLe d2 d1) [recS2, recS1] :=
  c4_save_sorted [recS1, recS2] [recS2, recS1] (by decide)

/-- Count of leading digits never exceeds the length. -/
theorem digitCount_le (cs : List Char) : digitCount cs ≤ cs.length :=
  (List.takeWhile_sublist _).length_le

/-- The fuel of tailLenF is irrelevant once it covers the input
length. -/
theorem tailLenF_congr :
    ∀ (f1 f2 : Nat) (cs : List Char), cs.length ≤ f1 → cs.length ≤ f2 →
      tailLenF f1 cs = tailLenF f2 cs := by
  intro f1
  induction f1 with
  | zero =>
    intro f2 cs h1 _
    have : cs = [] := List.length_eq_zero.mp (Nat.le_antisymm h1 (Nat.zero_le _))
    subst this
    cases f2 <;> rfl
  | succ f ih =>
    intro f2 cs h1 h2
    cases cs with
    | nil => cases f2 <;> rfl
    | cons c rest =>
      cases f2 with
      | zero => simp at h2
      | succ g =>
        show (if c = '.' then _ else 0) = (if c = '.' then _ else 0)
        by_cases hc : c = '.'
        · rw [if_pos hc, if_pos hc]
          by_cases hd : digitCount rest = 0
          · rw [if_pos hd, if_pos hd]
          · rw [if_neg hd, if_neg hd]
            have hlen : (rest.drop (digitCount rest)).length ≤ f := by
              rw [List.length_drop]
              simp only [List.length_cons] at h1
              omega
            have hlen2 : (rest.drop (digitCount rest)).length ≤ g := by
              rw [List.length_drop]
              simp only [List.length_cons] at h2
              omega
            rw [ih g _ hlen hlen2]
        · rw [if_neg hc, if_neg hc]

/-- Unfolding of the greedy tail match at a leading dot. -/
theorem tailLen_dot (rest : List Char) :
    tailLen ('.' :: rest) =
      if digitCount rest = 0 then 0
      else 1 + digitCount rest + tailLen (rest.drop (digitCount rest)) := by
  have h0 : tailLen ('.' :: rest) =
      if digitCount rest = 0 then 0
      else 1 + digitCount rest + tailLenF rest.length (rest.drop (digitCount rest)) := rfl
  rw [h0]
  split_ifs with hd
  · rfl
  · rw [tailLenF_congr rest.length (rest.drop (digitCount rest)).length
      (rest.drop (digitCount rest)) (by rw [List.length_drop]; omega) (Nat.le_refl _)]
    rfl

/-- The greedy tail match is empty when the input does not start with a
dot. -/
theorem tailLen_not_dot {c : Char} (rest : List Char) (h : ¬c = '.') :
    tailLen (c :: rest) = 0 := by
  have h0 : tailLen (c :: rest) =
      if c = '.' then
        (if digitCount rest = 0 then 0
          else 1 + digitCount rest + tailLenF rest.length (rest.drop (digitCount rest)))
      else 0 := rfl
  rw [h0, if_neg h]

/-- The greedy tail match of the empty input is empty. -/
theorem tailLen_nil : tailLen [] = 0 := rfl

/-- The greedy tail match never exceeds the input length. -/
theorem tailLen_le (cs : List Char) : tailLen cs ≤ cs.length := by
  generalize hn : cs.length = n
  induction n using Nat.strong_induction_on generalizing cs with
  | _ n ih =>
    cases cs with
    | nil => simp [tailLen_nil]
    | cons c rest =>
      by_cases hc : c = '.'
      · subst hc
        rw [tailLen_dot]
        split_ifs with hd
        · omega
        · have hdc := digitCount_le rest
          have hlt : (rest.drop (digitCount rest)).length < n := by
            rw [List.length_drop]
            simp only [List.length_cons] at hn
            omega
          have := ih _ hlt (rest.drop (digitCount rest)) rfl
          rw [List.length_drop] at this
          simp only [List.length_cons] at hn
          omega
      · rw [tailLen_not_dot rest hc]
        omega

/-- The leading-digit prefix is the take of the digit count. -/
theorem take_digitCount (cs : List Char) :
    cs.take (digitCount cs) = cs.takeWhile Char.isDigit := by
  induction cs with
  | nil => rfl
  | cons c rest ih =>
    by_cases hc : c.isDigit
    · rw [digitCount, List.takeWhile_cons_of_pos hc]
      simp only [List.length_cons, List.take_succ_cons]
      rw [← digitCount, ih]
    · rw [digitCount, List.takeWhile_cons_of_neg (by simpa using hc)]
      simp [List.takeWhile_cons_of_neg (by simpa using hc)]

/-- The remainder past the digit count is the dropWhile. -/
theorem drop_digitCount (cs : List Char) :
    cs.drop (digitCount cs) = cs.dropWhile Char.isDigit := by
  induction cs with
  | nil => rfl
  | cons c rest ih =>
    by_cases hc : c.isDigit
    · rw [digitCount, List.takeWhile_cons_of_pos hc]
      simp only [List.length_cons, List.drop_succ_cons]
      rw [← digitCount, ih, List.dropWhile_cons_of_pos hc]
    · rw [digitCount, List.takeWhile_cons_of_neg (by simpa using hc)]
      simp [List.dropWhile_cons_of_neg (by simpa using hc)]

/-- Every character of the digit prefix is a digit. -/
theorem takeWhile_digits (cs : List Char) :
    ∀ c ∈ cs.takeWhile Char.isDigit, c.isDigit = true :=
  fun _ hc => List.mem_takeWhile_imp hc

/-- The head of the dropWhile remainder falsifies the predicate. -/
theorem dropWhile_head_not {p : Char → Bool} :
    ∀ (l : List Char) {x : Char} {u : List Char}, l.dropWhile p = x :: u → p x = false := by
  intro l
  induction l with
  | nil => intro x u h; simp at h
  | cons c rest ih =>
    intro x u h
    by_cases hc : p c
    · rw [List.dropWhile_cons_of_pos hc] at h
      exact ih h
    · rw [List.dropWhile_cons_of_neg hc] at h
      cases h
      exact bool_eq_false hc

/-- Digit counting distributes over a prefix made of digits. -/
theorem digitCount_append_digits (ds u : List Char)
    (h : ∀ c ∈ ds, c.isDigit = true) :
    digitCount (ds ++ u) = ds.length + digitCount u := by
  induction ds with
  | nil => simp
  | cons c rest ih =>
    have hc : c.isDigit = true := h c (List.mem_cons_self _ _)
    rw [List.cons_append, digitCount, List.takeWhile_cons_of_pos hc]
    simp only [List.length_cons]
    rw [← digitCount, ih (fun x hx => h x (List.mem_cons_of_mem _ hx))]
    omega

/-- A dot is not a digit. -/
theorem dot_not_digit : ('.' : Char).isDigit = false := rfl

/-- Digit counting stops at a leading non-digit. -/
theorem digitCount_cons_not {c : Char} (rest : List Char) (h : c.isDigit = false) :
    digitCount (c :: rest) = 0 := by
  rw [digitCount, List.takeWhile_cons_of_neg (by simp [h])]
  rfl

/-- Unfolding of the core match length. -/
theorem coreLen_eq (cs : List Char) :
    coreLen cs =
      if digitCount cs = 0 then 0
      else digitCount cs + tailLen (cs.drop (digitCount cs)) := by
  unfold coreLen
  split_ifs with h <;> simp [h]

/-- The core match never exceeds the input length. -/
theorem coreLen_le (cs : List Char) : coreLen cs ≤ cs.length := by
  rw [coreLen_eq]
  split_ifs with h
  · omega
  · have h1 := tailLen_le (cs.drop (digitCount cs))
    rw [List.length_drop] at h1
    have := digitCount_le cs
    omega

/-- The whole-pattern match never exceeds the input length. -/
theorem matchLen_le (cs : List Char) : matchLen cs ≤ cs.length := by
  cases cs with
  | nil => simp [matchLen]
  | cons c rest =>
    rw [matchLen]
    split_ifs with h1 h2
    · have := coreLen_le rest
      simp only [List.length_cons]
      omega
    · simp
    · have := coreLen_le (c :: rest)
      omega

/-- At a dot, the greedy tail match is one dot plus a full core match of
what follows, when that core is non-empty. -/
theorem tailLen_dot_core (u : List Char) :
    tailLen ('.' :: u) = if 0 < coreLen u then 1 + coreLen u else 0 := by
  rw [tailLen_dot, coreLen_eq]
  by_cases hd : digitCount u = 0
  · simp [hd]
  · rw [if_neg hd, if_neg hd, if_pos (by omega)]
    omega

/-- A spec version-number core is never empty. -/
theorem vernum_ne_nil {p : List Char} (h : VerNum p) : p ≠ [] := by
  cases h with
  | digits ds h1 _ => exact h1
  | group ds h1 h2 rest hr => simp

/-- A spec version-number core starts with a digit. -/
theorem vernum_head_digit {p : List Char} (h : VerNum p) :
    ∃ c r, p = c :: r ∧ c.isDigit = true := by
  cases h with
  | digits ds h1 h2 =>
    obtain ⟨c, r, rfl⟩ := List.exists_cons_of_ne_nil h1
    exact ⟨c, r, rfl, h2 c (List.mem_cons_self _ _)⟩
  | group ds h1 h2 rest hr =>
    obtain ⟨c, r, rfl⟩ := List.exists_cons_of_ne_nil h1
    exact ⟨c, r ++ '.' :: rest, rfl, h2 c (List.mem_cons_self _ _)⟩

/-- Any spec version-number prefix of the input is no longer than the
greedy core match: the regex match is maximal. -/
theorem vernum_max {p : List Char} (h : VerNum p) :
    ∀ q, p.length ≤ coreLen (p ++ q) := by
  induction h with
  | digits ds h1 h2 =>
    intro q
    rw [coreLen_eq, digitCount_append_digits ds q h2]
    have hlen : 0 < ds.length := List.length_pos.mpr h1
    rw [if_neg (by omega)]
    omega
  | group ds h1 h2 rest hr ih =>
    intro q
    have hsplit : (ds ++ '.' :: rest) ++ q = ds ++ '.' :: (rest ++ q) := by simp
    rw [hsplit, coreLen_eq]
    have hdc : digitCount (ds ++ '.' :: (rest ++ q)) = ds.length := by
      rw [digitCount_append_digits ds _ h2, digitCount_cons_not _ dot_not_digit]
      omega
    rw [hdc]
    have hlen : 0 < ds.length := List.length_pos.mpr h1
    rw [if_neg (by omega)]
    have hdrop : (ds ++ '.' :: (rest ++ q)).drop ds.length = '.' :: (rest ++ q) :=
      List.drop_left _ _
    rw [hdrop, tailLen_dot_core]
    have hrq := ih q
    have hne : 0 < rest.length := List.length_pos.mpr (vernum_ne_nil hr)
    rw [if_pos (by omega)]
    simp only [List.length_append, List.length_cons]
    omega

/-- The non-empty greedy core match is itself a spec version-number
core: the regex match is sound. -/
theorem vernum_sound (cs : List Char) (hpos : 0 < coreLen cs) :
    VerNum (cs.take (coreLen cs)) := by
  generalize hn : cs.length = n
  induction n using Nat.strong_induction_on generalizing cs with
  | _ n ih =>
    have hdigits := takeWhile_digits cs
    have htake := take_digitCount cs
    have hdrop := drop_digitCount cs
    rw [coreLen_eq] at hpos ⊢
    by_cases hdc : digitCount cs = 0
    · rw [if_pos hdc] at hpos; omega
    · rw [if_neg hdc] at hpos ⊢
      have hdsne : cs.takeWhile Char.isDigit ≠ [] := by
        intro hnil
        rw [digitCount, hnil] at hdc
        exact hdc rfl
      cases hsplit : cs.drop (digitCount cs) with
      | nil =>
        rw [tailLen_nil]
        simp only [Nat.add_zero]
        rw [htake]
        exact VerNum.digits _ hdsne hdigits
      | cons x u =>
        have hx : x.isDigit = false := dropWhile_head_not cs (hdrop.symm.trans hsplit)
        by_cases hxd : x = '.'
        · subst hxd
          rw [tailLen_dot_core]
          by_cases hcu : 0 < coreLen u
          · rw [if_pos hcu]
            have hcs : cs = cs.takeWhile Char.isDigit ++ '.' :: u := by
              conv_lhs => rw [← List.take_append_drop (digitCount cs) cs]
              rw [htake, hsplit]
            have hlen : (cs.takeWhile Char.isDigit).length = digitCount cs := rfl
            have htk : cs.take (digitCount cs + (1 + coreLen u)) =
                cs.takeWhile Char.isDigit ++ '.' :: u.take (coreLen u) := by
              rw [show cs.take (digitCount cs + (1 + coreLen u)) =
                  (cs.takeWhile Char.isDigit ++ '.' :: u).take (digitCount cs + (1 + coreLen u))
                from by rw [← hcs]]
              rw [List.take_append_eq_append_take]
              rw [List.take_of_length_le (by rw [hlen]; omega)]
              congr 1
              rw [hlen]
              have h2 : digitCount cs + (1 + coreLen u) - digitCount cs = coreLen u + 1 := by
                omega
              rw [h2, List.take_succ_cons]
            rw [htk]
            refine VerNum.group _ hdsne hdigits _ ?_
            have hulen : u.length < n := by
              rw [← hn]
              have hl : cs.length = (cs.takeWhile Char.isDigit).length + ('.' :: u).length := by
                conv_lhs => rw [hcs]
                rw [List.length_append]
              simp only [List.length_cons] at hl
              omega
            exact ih u.length hulen u hcu rfl
          · rw [if_neg hcu]
            simp only [Nat.add_zero]
            rw [htake]
            exact VerNum.digits _ hdsne hdigits
        · rw [tailLen_not_dot _ hxd]
          simp only [Nat.add_zero]
          rw [htake]
          exact VerNum.digits _ hdsne hdigits

/-- The core acceptor steps over a digit. -/
theorem coreTail_cons_digit {c : Char} (l : List Char) (hc : c.isDigit = true) :
    coreTail (c :: l) = coreTail l := by
  rw [coreTail.eq_def]
  simp [hc]

/-- The core acceptor rejects a head that is neither digit nor dot. -/
theorem coreTail_cons_stop {c : Char} (l : List Char) (hc : c.isDigit = false)
    (hd : ¬c = '.') : coreTail (c :: l) = false := by
  rw [coreTail.eq_def]
  simp [hc, hd]

/-- The core acceptor skips a leading block of digits. -/
theorem coreTail_digits (ds : List Char) (h : ∀ c ∈ ds, c.isDigit = true) :
    ∀ u, coreTail (ds ++ u) = coreTail u := by
  induction ds with
  | nil => intro u; rfl
  | cons c rest ih =>
    intro u
    have hc : c.isDigit = true := h c (List.mem_cons_self _ _)
    rw [List.cons_append, coreTail_cons_digit _ hc]
    exact ih (fun x hx => h x (List.mem_cons_of_mem _ hx)) u

/-- After a dot, the core acceptor requires a fresh core. -/
theorem coreTail_dot (u : List Char) : coreTail ('.' :: u) = specCore u := by
  cases u with
  | nil => rfl
  | cons c2 r2 => rfl

/-- Spec version-number cores are accepted by the executable
acceptor. -/
theorem specCore_of_vernum {p : List Char} (h : VerNum p) : specCore p = true := by
  induction h with
  | digits ds h1 h2 =>
    obtain ⟨c, r, rfl⟩ := List.exists_cons_of_ne_nil h1
    rw [specCore, h2 c (List.mem_cons_self _ _), Bool.true_and]
    rw [← List.append_nil r]
    rw [coreTail_digits r (fun x hx => h2 x (List.mem_cons_of_mem _ (by simpa using hx)))]
    rfl
  | group ds h1 h2 rest hr ih =>
    obtain ⟨c, r, rfl⟩ := List.exists_cons_of_ne_nil h1
    rw [List.cons_append, specCore, h2 c (List.mem_cons_self _ _), Bool.true_and]
    rw [coreTail_digits r (fun x hx => h2 x (List.mem_cons_of_mem _ hx))]
    rw [coreTail_dot]
    exact ih

/-- Strings accepted by the executable acceptor are spec version-number
cores. -/
theorem vernum_of_specCore :
    ∀ (cs : List Char), specCore cs = true → VerNum cs := by
  intro cs
  generalize hn : cs.length = n
  induction n using Nat.strong_induction_on generalizing cs with
  | _ n ih =>
    intro h
    cases cs with
    | nil => exact absurd h (by simp [specCore])
    | cons c rest =>
      rw [specCore, Bool.and_eq_true] at h
      have hsw : (c :: rest).takeWhile Char.isDigit = c :: rest.takeWhile Char.isDigit :=
        List.takeWhile_cons_of_pos h.1
      cases hsplit : (c :: rest).dropWhile Char.isDigit with
      | nil =>
        have hcs : (c : Char) :: rest = (c :: rest).takeWhile Char.isDigit := by
          conv_lhs => rw [← List.takeWhile_append_dropWhile Char.isDigit (c :: rest)]
          rw [hsplit, List.append_nil]
        rw [hcs]
        exact VerNum.digits _ (by rw [← hcs]; simp) (takeWhile_digits _)
      | cons x u =>
        have hx : x.isDigit = false := dropWhile_head_not _ hsplit
        have hcs : (c : Char) :: rest = (c :: rest).takeWhile Char.isDigit ++ x :: u := by
          conv_lhs => rw [← List.takeWhile_append_dropWhile Char.isDigit (c :: rest)]
          rw [hsplit]
        have htail : coreTail (rest.takeWhile Char.isDigit ++ x :: u) = coreTail (x :: u) :=
          coreTail_digits _ (takeWhile_digits rest) _
        have hrest : rest = rest.takeWhile Char.isDigit ++ x :: u := by
          have := hcs
          rw [hsw, List.cons_append] at this
          exact (List.cons_inj_right c).mp this
        rw [hrest] at h
        rw [htail] at h
        by_cases hxd : x = '.'
        · subst hxd
          rw [coreTail_dot] at h
          have hu : VerNum u := by
            refine ih u.length ?_ u rfl h.2
            rw [← hn, hrest]
            simp only [List.length_cons, List.length_append]
            omega
          rw [hcs, hsw]
          exact VerNum.group _ (by simp) (by rw [← hsw]; exact takeWhile_digits _) u hu
        · rw [coreTail_cons_stop _ hx hxd] at h
          exact absurd h.2 (by simp)

/-- The executable core acceptor recognizes exactly the spec
version-number cores. -/
theorem specCore_iff_vernum (cs : List Char) : specCore cs = true ↔ VerNum cs :=
  ⟨vernum_of_specCore cs, specCore_of_vernum⟩

/-- A positive greedy match is accepted by the prefix pattern. -/
theorem matchLen_sound (cs : List Char) (h : 0 < matchLen cs) :
    specPat0 (cs.take (matchLen cs)) = true := by
  cases cs with
  | nil => simp [matchLen] at h
  | cons c rest =>
    rw [matchLen] at h ⊢
    by_cases hv : c = 'v'
    · rw [if_pos hv] at h ⊢
      split_ifs at h with hc
      · rw [if_pos hc]
        have h1 : (1 + coreLen rest) = coreLen rest + 1 := by omega
        rw [h1, List.take_succ_cons, specPat0, if_pos hv]
        exact specCore_of_vernum (vernum_sound rest hc)
      · omega
    · rw [if_neg hv] at h ⊢
      cases hk : coreLen (c :: rest) with
      | zero => omega
      | succ k =>
        rw [List.take_succ_cons, specPat0, if_neg hv]
        have := vernum_sound (c :: rest) (by omega)
        rw [hk, List.take_succ_cons] at this
        exact specCore_of_vernum this

/-- Any prefix accepted by the pattern is no longer than the greedy
match. -/
theorem matchLen_max (cs : List Char) (k : Nat) (hk : k ≤ cs.length)
    (h : specPat0 (cs.take k) = true) : k ≤ matchLen cs := by
  cases k with
  | zero => omega
  | succ k' =>
    cases cs with
    | nil => simp at hk
    | cons c rest =>
      rw [List.take_succ_cons, specPat0] at h
      rw [matchLen]
      by_cases hv : c = 'v'
      · rw [if_pos hv] at h ⊢
        have hvn : VerNum (rest.take k') := vernum_of_specCore _ h
        have hmax := vernum_max hvn (rest.drop k')
        rw [List.take_append_drop] at hmax
        have hlen : (rest.take k').length = k' := by
          rw [List.length_take]
          simp only [List.length_cons] at hk
          omega
        rw [hlen] at hmax
        have hpos : 0 < k' := by
          have := vernum_ne_nil hvn
          cases k' with
          | zero => simp at this
          | succ m => omega
        rw [if_pos (by omega)]
        omega
      · rw [if_neg hv] at h ⊢
        have hvn : VerNum (c :: rest.take k') := vernum_of_specCore _ h
        have hmax := vernum_max hvn ((c :: rest).drop (k' + 1))
        rw [List.drop_succ_cons, List.cons_append, List.take_append_drop] at hmax
        simp only [List.length_cons] at hmax hk
        have hlen : (rest.take k').length = k' := by
          rw [List.length_take]
          omega
        rw [hlen] at hmax
        omega

/-- Upper bound for a fold of max. -/
theorem foldr_max_le {l : List Nat} {M : Nat} (h : ∀ x ∈ l, x ≤ M) :
    l.foldr max 0 ≤ M := by
  induction l with
  | nil => simp
  | cons x xs ih =>
    rw [List.foldr_cons]
    exact max_le (h x (List.mem_cons_self _ _))
      (ih (fun y hy => h y (List.mem_cons_of_mem _ hy)))

/-- Lower bound for a fold of max by any member. -/
theorem le_foldr_max {l : List Nat} {M : Nat} (h : M ∈ l) : M ≤ l.foldr max 0 := by
  induction l with
  | nil => simp at h
  | cons x xs ih =>
    rw [List.foldr_cons]
    rcases List.mem_cons.mp h with hx | hx
    · subst hx; exact le_max_left _ _
    · exact le_trans (ih hx) (le_max_right _ _)

/-- The longest pattern-accepted prefix is the greedy regex match. -/
theorem longestPat0_eq_matchLen (cs : List Char) :
    longestPat specPat0 cs = matchLen cs := by
  unfold longestPat
  cases hm : matchLen cs with
  | zero =>
    have hempty : ((List.range (cs.length + 1)).filter (fun k => specPat0 (cs.take k))) = [] := by
      rw [List.filter_eq_nil_iff]
      intro k hk hacc
      have hk' : k ≤ cs.length := by
        have := List.mem_range.mp hk
        omega
      have := matchLen_max cs k hk' hacc
      rw [hm] at this
      have hk0 : k = 0 := by omega
      subst hk0
      simp [specPat0] at hacc
    rw [hempty]
    rfl
  | succ n =>
    apply Nat.le_antisymm
    · apply foldr_max_le
      intro x hx
      obtain ⟨hxr, hxa⟩ := List.mem_filter.mp hx
      rw [← hm]
      exact matchLen_max cs x (by have := List.mem_range.mp hxr; omega) hxa
    · apply le_foldr_max
      rw [List.mem_filter]
      constructor
      · rw [List.mem_range]
        have := matchLen_le cs
        omega
      · rw [← hm]
        exact matchLen_sound cs (by omega)

/-- The executable prefix pattern recognizes exactly the spec's shape:
an optional leading v followed by a version-number core. -/
theorem specPat0_iff (cs : List Char) :
    specPat0 cs = true ↔ ((∃ rest, cs = 'v' :: rest ∧ VerNum rest) ∨ VerNum cs) := by
  cases cs with
  | nil =>
    simp only [specPat0]
    constructor
    · intro h; simp at h
    · rintro (⟨rest, h, _⟩ | h)
      · simp at h
      · exact absurd rfl (vernum_ne_nil h)
  | cons c rest =>
    rw [specPat0]
    by_cases hv : c = 'v'
    · subst hv
      rw [if_pos rfl, specCore_iff_vernum]
      constructor
      · intro h; exact Or.inl ⟨rest, rfl, h⟩
      · rintro (⟨rest', heq, hr⟩ | h)
        · cases heq; exact hr
        · obtain ⟨x, r, heq, hx⟩ := vernum_head_digit h
          cases heq
          exact absurd hx (by simp)
    · rw [if_neg hv, specCore_iff_vernum]
      constructor
      · intro h; exact Or.inr h
      · rintro (⟨rest', heq, _⟩ | h)
        · cases heq; exact absurd rfl hv
        · exact h

/-- The one-or-more-groups pattern is a version-number core containing
a dot. -/
theorem vernumone_iff (cs : List Char) : VerNumOne cs ↔ (VerNum cs ∧ '.' ∈ cs) := by
  constructor
  · rintro ⟨ds, rest, h1, h2, hr, rfl⟩
    exact ⟨VerNum.group ds h1 h2 rest hr, by simp⟩
  · rintro ⟨hv, hdot⟩
    cases hv with
    | digits ds h1 h2 =>
      exact absurd (h2 '.' hdot) (by simp [dot_not_digit])
    | group ds h1 h2 rest hr =>
      exact ⟨ds, rest, h1, h2, hr, rfl⟩

/-- The executable one-or-more pattern recognizes exactly the claim's
stated shape: optional v, at least one digits-dot group, trailing
digits. -/
theorem specPat1_iff (cs : List Char) :
    specPat1 cs = true ↔ ((∃ rest, cs = 'v' :: rest ∧ VerNumOne rest) ∨ VerNumOne cs) := by
  cases cs with
  | nil =>
    simp only [specPat1]
    constructor
    · intro h; simp at h
    · rintro (⟨rest, h, _⟩ | h)
      · simp at h
      · rw [vernumone_iff] at h
        exact absurd rfl (vernum_ne_nil h.1)
  | cons c rest =>
    rw [specPat1]
    by_cases hv : c = 'v'
    · subst hv
      rw [if_pos rfl]
      rw [Bool.and_eq_true, specCore_iff_vernum, List.any_eq_true]
      simp only [decide_eq_true_eq]
      constructor
      · rintro ⟨hv1, x, hx, rfl⟩
        exact Or.inl ⟨rest, rfl, (vernumone_iff rest).mpr ⟨hv1, hx⟩⟩
      · rintro (⟨rest', heq, hr⟩ | h)
        · cases heq
          rw [vernumone_iff] at hr
          exact ⟨hr.1, '.', hr.2, rfl⟩
        · rw [vernumone_iff] at h
          obtain ⟨x, r, heq, hx⟩ := vernum_head_digit h.1
          cases heq
          exact absurd hx (by simp)
    · rw [if_neg hv]
      rw [Bool.and_eq_true, specCore_iff_vernum, List.any_eq_true]
      simp only [decide_eq_true_eq]
      constructor
      · rintro ⟨hv1, x, hx, rfl⟩
        exact Or.inr ((vernumone_iff _).mpr ⟨hv1, hx⟩)
      · rintro (⟨rest', heq, _⟩ | h)
        · cases heq; exact absurd rfl hv
        · rw [vernumone_iff] at h
          exact ⟨h.1, '.', h.2, rfl⟩

/-- C7 counterexample: on the tag v2-turbo the claim's stated pattern
(one or more digits-dot groups) strips nothing, leaving v2-turbo, while
the code's regex (zero or more groups) strips the v2 prefix and the
extractor emits model_name turbo. -/
theorem c7_version_strip_counterexample :
    specClean1 "v2-turbo" = "v2-turbo" ∧
      cleanModelName "v2-turbo" = "turbo" ∧
      extract_model_info_from_github relV2 "OpenAI" =
        some
          { company := "OpenAI"
            model_name := "turbo"
            update_date := "2025-10-12"
            features := ""
            source := "GitHub"
            link := "https://github.com/openai/openai-python/releases/tag/v2-turbo" } ∧
      ("v2-turbo" : String) ≠ "turbo" := by
  refine ⟨by decide, by decide, by decide, by decide⟩

/-- C7 amended: the extractor's model_name normalization strips the
longest leading prefix of the form optional v, zero or more digits-dot
groups, trailing digits, then trims dashes and whitespace (the
executable pattern provably matches that spec shape); on Scenario A's
tag v2.1-turbo it yields turbo, and a fully version-like tag falls back
to the company-and-tag placeholder. -/
theorem c7_version_strip_amended :
    (∀ s, cleanModelName s = specClean0 s) ∧
      (∀ cs, specPat0 cs = true ↔ ((∃ rest, cs = 'v' :: rest ∧ VerNum rest) ∨ VerNum cs)) ∧
      extract_model_info_from_github relA "OpenAI" =
        some
          { company := "OpenAI"
            model_name := "turbo"
            update_date := "2025-10-12"
            features := "Adds turbo mode"
            source := "GitHub"
            link := "https://github.com/openai/openai-python/releases/tag/v2.1-turbo" } ∧
      extract_model_info_from_github relEmpty "OpenAI" =
        some
          { company := "OpenAI"
            model_name := "OpenAI Model v1.0"
            update_date := "2025-10-12"
            features := ""
            source := "GitHub"
            link := "https://github.com/openai/openai-python/releases/tag/v1.0" } := by
  refine ⟨fun s => ?_, specPat0_iff, by decide, by decide⟩
  unfold cleanModelName specClean0 specCleanWith
  rw [longestPat0_eq_matchLen]
